import Mathlib

/-!
# Verification of the console-slog handler

Shallow embedding of the `console` package (handler.go, current handler
source) together with spec-modelled stand-ins for the parts of the
repository that are not among the provided sources (the `buffer` /
`encoder` files).  Machine integers (`int`, `int64`, `uint`) are modelled
as `Int`/`Nat`; Go slices (the `buffer` type used for the accumulated
context) are modelled explicitly with a heap of arrays so that the
copy-before-append / clip-after discipline of `WithAttrs` is faithfully
represented.
-/

namespace Console

/-- The kinds of `slog.Value` relevant to this package (a subset of the
`slog.Kind` enumeration; the remaining scalar kinds behave like `str`
for every property proved here). -/
inductive Kind where
  | int64
  | str
  | bool
  | group
  | logValuer
  deriving DecidableEq, Repr

/-- `slog.Value`, modelled at the interface boundary (§3 of the spec):
a tagged variant over the kinds above.  A lazily-evaluated value
(`KindLogValuer`) carries the value its `LogValue()` method returns. -/
inductive Value where
  | vInt (i : Int)
  | vStr (s : String)
  | vBool (b : Bool)
  | vGroup (attrs : List (String × Value))
  | vLogValuer (resolved : Value)

/-- An attribute: a (key, value) pair, `slog.Attr`. -/
abbrev Attr := String × Value

/-- `Value.Kind()`. -/
def Value.kind : Value → Kind
  | .vInt _ => .int64
  | .vStr _ => .str
  | .vBool _ => .bool
  | .vGroup _ => .group
  | .vLogValuer _ => .logValuer

/-- `Value.Int64()`: the integer payload (only called by the source
under a `Kind() == KindInt64` guard). -/
def Value.int64Val : Value → Int
  | .vInt i => i
  | _ => 0

/-- `Value.LogValuer().LogValue()`: one resolution step of a lazy value
(only called by the source under a `Kind() == KindLogValuer` guard). -/
def Value.resolveLogValue : Value → Value
  | .vLogValuer r => r
  | v => v

/-- `const defaultIndentKey = "depth"`. -/
def defaultIndentKey : String := "depth"

/-- The `Indentation` configuration struct.  The Go field names are
`Prefix`, `Tab` and `Key`; `Prefix` is rendered here as `pre` because
`prefix` is reserved in Lean. -/
structure Indentation where
  pre : String
  tab : String
  key : String
  deriving DecidableEq, Repr

/-- `Indentation.isZero`: both the prefix and tab strings are empty. -/
def Indentation.isZero (ind : Indentation) : Bool :=
  ind.pre == "" && ind.tab == ""

/-- `strings.Builder` loop writing `s` exactly `n` times. -/
def repeatString (s : String) : Nat → String
  | 0 => ""
  | n + 1 => repeatString s n ++ s

/-- `Indentation.indentString(depth int64)`: returns `""` when the
configuration is zero or `depth <= 0`; otherwise builds the prefix
(when non-empty) followed by `depth` copies of the tab string. -/
def Indentation.indentString (ind : Indentation) (depth : Int) : String :=
  if ind.isZero || depth ≤ 0 then ""
  else
    (if ind.pre ≠ "" then ind.pre else "") ++
    (if ind.tab ≠ "" then repeatString ind.tab depth.toNat else "")

/-- `DefaultIndentation(tab string)`: the source builds the struct with a
literal two-space `Tab`, leaving the `tab` parameter unused, an empty
`Prefix`, and `Key` set to `defaultIndentKey`. -/
def DefaultIndentation (_tab : String) : Indentation :=
  { pre := "", tab := "  ", key := defaultIndentKey }

/-- The `DepthValuer` struct: a mutable `int` depth counter, modelled by
explicit state passing (each method returns the updated value). -/
structure DepthValuer where
  depth : Int
  deriving DecidableEq, Repr

/-- `DepthValuer.LogValue()`: reports the current depth as an integer
`slog.Value`. -/
def DepthValuer.LogValue (dv : DepthValuer) : Value :=
  .vInt dv.depth

/-- `DepthValuer.Increment()`: `dv.depth += 1`. -/
def DepthValuer.Increment (dv : DepthValuer) : DepthValuer :=
  { depth := dv.depth + 1 }

/-- `DepthValuer.Decrement()`: `dv.depth -= 1` (no floor). -/
def DepthValuer.Decrement (dv : DepthValuer) : DepthValuer :=
  { depth := dv.depth - 1 }

/-- Go's `unicode.IsSpace` (the White_Space property), used by
`strings.TrimSpace`. -/
def goIsSpace (c : Char) : Bool :=
  let n := c.toNat
  decide ((9 ≤ n ∧ n ≤ 13) ∨ n = 32 ∨ n = 0x85 ∨ n = 0xA0 ∨ n = 0x1680 ∨
    (0x2000 ≤ n ∧ n ≤ 0x200A) ∨ n = 0x2028 ∨ n = 0x2029 ∨ n = 0x202F ∨
    n = 0x205F ∨ n = 0x3000)

/-- `strings.TrimSpace`: drop leading and trailing white space. -/
def goTrimSpace (s : String) : String :=
  ⟨((s.data.dropWhile goIsSpace).reverse.dropWhile goIsSpace).reverse⟩

/-! ## Encoder (spec-modelled)

The encoder source file is not among the provided sources; only its
call sites are.  The functions below are modelled from the spec, §4.1
and §6: each `write…` operation appends the bytes of one semantic token
(colour wrappers omitted: colouring is out of scope for every claim),
tokens after the first are preceded by a single space, and an attribute
renders as `key=value` under the dotted group path. -/

/-- Extend a dotted group path by one component (a root path is empty,
so the first level yields just the component). -/
def extendPath (path name : String) : String :=
  if path = "" then name else path ++ "." ++ name

/-- Modelled from the spec: the textual form of one scalar value
(§4.1): booleans as `true`/`false`, integers in decimal, strings
verbatim unless they contain the separator, `=` or a quote, in which
case they are quoted. -/
def valueText : Value → String
  | .vInt i => toString i
  | .vBool b => cond b "true" "false"
  | .vStr s =>
      if s.data.any (fun c => c = ' ' || c = '=' || c = '"') then
        "\"" ++ s ++ "\""
      else s
  | .vGroup _ => ""
  | .vLogValuer _ => ""

mutual
/-- Modelled from the spec: `encoder.writeAttr` for one value under key
`k` and group path `path` — a group recurses into its children with the
path extended by `.` and the group name; a lazily-evaluated value is
resolved and then dispatched on the resolved kind; a scalar appends a
space, the dotted key, `=`, and the value text. -/
def encodeValueAt (path k : String) : Value → List Char
  | .vGroup as => encodeAttrList (extendPath path k) as
  | .vLogValuer r => encodeValueAt path k r
  | v => (" " ++ extendPath path k ++ "=" ++ valueText v).data

/-- Modelled from the spec: the encoder applied to each attribute of a
list in order (the bytes of a sequence of `writeAttr` calls). -/
def encodeAttrList (path : String) : List (String × Value) → List Char
  | [] => []
  | (k, v) :: rest => encodeValueAt path k v ++ encodeAttrList path rest
end

/-- Modelled from the spec: one `encoder.writeAttr` call. -/
def encodeAttr (path : String) (a : Attr) : List Char :=
  encodeValueAt path a.1 a.2

/-- Modelled from the spec: the level abbreviations of §6 — `DBG`,
`INF`, `WRN`, `ERR` for the standard severities, with a signed numeric
offset from the nearest standard level otherwise — followed by the
token separator. -/
def levelAbbrev (l : Int) : String :=
  let tag := fun (s : String) (d : Int) =>
    if d = 0 then s else if 0 < d then s ++ "+" ++ toString d else s ++ toString d
  if l < 0 then tag "DBG" (l + 4)
  else if l < 4 then tag "INF" l
  else if l < 8 then tag "WRN" (l - 4)
  else tag "ERR" (l - 8)

/-- Modelled from the spec: `encoder.writeTimestamp` — the record's
timestamp rendered per the configured format; time formatting itself is
outside the sources, so the record carries its rendered timestamp
string and the encoder appends it followed by the separator. -/
def writeTimestamp (t : String) : List Char :=
  t.data ++ [' ']

/-- Modelled from the spec: `encoder.writeLevel`. -/
def writeLevel (l : Int) : List Char :=
  (levelAbbrev l).data ++ [' ']

/-- Modelled from the spec: `encoder.writeSource` — the call site
resolved from the program counter; source-table lookup is outside the
sources, so the rendering is a deterministic function of the PC. -/
def writeSource (pc : Nat) : List Char :=
  (toString pc).data ++ [':', ' ']

/-- Modelled from the spec: `encoder.writeMessage` (message text passed
through unescaped). -/
def writeMessage (msg : String) : List Char :=
  msg.data

/-- Modelled from the spec: `encoder.NewLine` — the line terminator
(`\r\n`, as pinned by the repository's handler tests). -/
def newlineBytes : List Char :=
  ['\r', '\n']

/-! ## The depth scan of `Handler.Handle` -/

/-- The body of the `rec.Attrs` callback in the indenting branch of
`Handler.Handle`: an attribute whose key equals the configured depth
key is not appended to `attributes`; its value (after one
`LogValuer().LogValue()` resolution step when it is of kind
`KindLogValuer`) overwrites `depth` when of kind `KindInt64`; every
other attribute is appended to `attributes`. -/
def scanStep (key : String) (acc : List Attr × Int) (a : Attr) : List Attr × Int :=
  if a.1 = key then
    let value := a.2
    let value := if value.kind = Kind.logValuer then value.resolveLogValue else value
    if value.kind = Kind.int64 then (acc.1, value.int64Val) else acc
  else (acc.1 ++ [a], acc.2)

/-- The full scan: `attributes` and `depth` start empty and `0` and the
callback runs over the record's attributes in order. -/
def scanAttrs (key : String) (as : List Attr) : List Attr × Int :=
  as.foldl (scanStep key) ([], 0)

/-- The depth a single attribute value contributes when scanned: the
value after one lazy-resolution step when applicable, interpreted as an
integer, `0` for any other kind. -/
def interpDepth (v : Value) : Int :=
  let value := if v.kind = Kind.logValuer then v.resolveLogValue else v
  if value.kind = Kind.int64 then value.int64Val else 0

/-- The integer depths contributed by the attributes under `key`, in
order: attributes under other keys or whose resolved value is not of
integer kind contribute nothing. -/
def depthCandidates (key : String) (as : List Attr) : List Int :=
  as.filterMap fun a =>
    if a.1 = key then
      let value := if a.2.kind = Kind.logValuer then a.2.resolveLogValue else a.2
      if value.kind = Kind.int64 then some value.int64Val else none
    else none

/-! ## Go slices and the context buffer

The accumulated context of a Handler is a Go slice of bytes (the
`buffer` type, held by value in the `context` field).  The derivation
discipline of `WithAttrs` — copy the parent's slice header, append
through it, then `Clip` — is only meaningful under Go's aliasing
semantics, so slices are modelled explicitly: a heap of fixed-size
arrays plus slice headers `(array, offset, length, capacity)`.
`append` writes in place while `len < cap` and reallocates into a
fresh array otherwise; `Clip` (spec §4.2: trim the capacity
bookkeeping to the logical length) sets `cap := len`. -/

/-- A heap array: a size and its contents (reads beyond `size` never
occur under the well-formedness invariant). -/
structure Arr where
  size : Nat
  data : Nat → Char

/-- The heap: a bump-allocated collection of arrays. -/
structure Heap where
  hsize : Nat
  arrs : Nat → Arr

/-- The empty heap. -/
def emptyHeap : Heap :=
  { hsize := 0, arrs := fun _ => { size := 0, data := fun _ => ' ' } }

/-- A Go slice header over the heap. -/
structure GoSlice where
  arr : Nat
  off : Nat
  len : Nat
  cap : Nat
  deriving DecidableEq, Repr

/-- The nil slice (`context: nil` in `NewHandler`). -/
def nilSlice : GoSlice :=
  { arr := 0, off := 0, len := 0, cap := 0 }

/-- The logical bytes of a slice. -/
def readSlice (h : Heap) (s : GoSlice) : List Char :=
  (List.range s.len).map fun i => (h.arrs s.arr).data (s.off + i)

/-- Overwrite one cell of an array. -/
def arrWrite (a : Arr) (idx : Nat) (c : Char) : Arr :=
  { a with data := fun j => if j = idx then c else a.data j }

/-- Replace one array of the heap. -/
def heapSet (h : Heap) (i : Nat) (a : Arr) : Heap :=
  { h with arrs := fun j => if j = i then a else h.arrs j }

/-- Allocate a fresh array at the end of the heap. -/
def heapPush (h : Heap) (a : Arr) : Heap :=
  { hsize := h.hsize + 1, arrs := fun j => if j = h.hsize then a else h.arrs j }

/-- Go's `append` for one byte: write in place when spare capacity
remains, otherwise reallocate into a fresh array (grown capacity) that
starts with a copy of the slice's bytes. -/
def appendByte (h : Heap) (s : GoSlice) (c : Char) : Heap × GoSlice :=
  if s.len < s.cap then
    (heapSet h s.arr (arrWrite (h.arrs s.arr) (s.off + s.len) c),
     { s with len := s.len + 1 })
  else
    let newCap := 2 * (s.len + 1)
    let a : Arr :=
      { size := newCap
        data := fun j =>
          if j < s.len then (h.arrs s.arr).data (s.off + j)
          else if j = s.len then c else ' ' }
    (heapPush h a, { arr := h.hsize, off := 0, len := s.len + 1, cap := newCap })

/-- Appending a byte sequence, front to back. -/
def appendBytes (h : Heap) (s : GoSlice) : List Char → Heap × GoSlice
  | [] => (h, s)
  | c :: cs =>
      let r := appendByte h s c
      appendBytes r.1 r.2 cs

/-- `buffer.Clip`: trim the capacity to the logical length so that no
spare capacity beyond the copied prefix can later be aliased. -/
def GoSlice.clip (s : GoSlice) : GoSlice :=
  { s with cap := s.len }

/-- Well-formedness of a slice over a heap: the length is within the
capacity and, when there is any capacity, the slice window lies inside
an allocated array. -/
def SliceWF (h : Heap) (s : GoSlice) : Prop :=
  s.len ≤ s.cap ∧ (0 < s.cap → s.arr < h.hsize ∧ s.off + s.cap ≤ (h.arrs s.arr).size)

instance (h : Heap) (s : GoSlice) : Decidable (SliceWF h s) := by
  unfold SliceWF; infer_instance

/-- Heap evolution that leaves every pre-existing array intact. -/
def AgreesBelow (h0 h : Heap) : Prop :=
  h0.hsize ≤ h.hsize ∧ ∀ i, i < h0.hsize → h.arrs i = h0.arrs i

/-- The ownership invariant maintained while appending to a slice taken
from a clipped parent: the heap only grew by fresh arrays, and the
slice either is still the untouched (clipped) parent header or lives
entirely in the fresh part of the heap. -/
def Owned (h0 : Heap) (h : Heap) (s : GoSlice) : Prop :=
  SliceWF h s ∧ AgreesBelow h0 h ∧ (s.cap = s.len ∨ h0.hsize ≤ s.arr)

/-! ## The Handler -/

/-- `HandlerOptions` (the fields the core uses; `Theme` is out of scope
— colouring is disabled throughout — and the `Leveler` is modelled by
the level it reports). -/
structure HandlerOptions where
  addSource : Bool
  level : Int
  noColor : Bool
  timeFormat : String
  indent : Indentation

/-- The `Handler` struct: options, dotted group path, and the
accumulated context buffer (a Go slice).  The output writer and the
(stateless) encoder are passed where used. -/
structure Handler where
  opts : HandlerOptions
  group : String
  context : GoSlice

/-- `NewHandler`'s option defaulting (for the fields modelled here):
an empty time format becomes `time.DateTime` and an empty indent key
becomes `defaultIndentKey`; the handler starts with an empty group and
a nil context. -/
def NewHandler (opts : HandlerOptions) : Handler :=
  let opts :=
    if opts.timeFormat = "" then { opts with timeFormat := "2006-01-02 15:04:05" } else opts
  let opts :=
    if opts.indent.key = "" then { opts with indent.key := defaultIndentKey } else opts
  { opts := opts, group := "", context := nilSlice }

/-- `Handler.Enabled`: `l >= h.opts.Level.Level()`. -/
def Handler.Enabled (h : Handler) (l : Int) : Bool :=
  decide (h.opts.level ≤ l)

/-- A log record at the interface boundary (§6): rendered timestamp,
level, program counter, message, and the attribute sequence in
emission order. -/
structure Rec where
  time : String
  level : Int
  pc : Nat
  message : String
  attrs : List Attr

/-- The bytes `Handler.Handle` builds into the borrowed buffer for one
record, in the order of the source: timestamp, level, source (when
configured and `rec.PC > 0`), then — without indentation — message,
context copy and each record attribute, or — with indentation — the
single scan for the depth key, the indented message, context copy and
each retained attribute; finally the line terminator. -/
def renderLine (hp : Heap) (h : Handler) (rec : Rec) : List Char :=
  let hdr := writeTimestamp rec.time ++ writeLevel rec.level ++
    (if h.opts.addSource && decide (0 < rec.pc) then writeSource rec.pc else [])
  if h.opts.indent.isZero then
    hdr ++ writeMessage rec.message ++ readSlice hp h.context ++
      encodeAttrList h.group rec.attrs ++ newlineBytes
  else
    let key := h.opts.indent.key
    let s := scanAttrs key rec.attrs
    hdr ++ writeMessage (h.opts.indent.indentString s.2 ++ rec.message) ++
      readSlice hp h.context ++ encodeAttrList h.group s.1 ++ newlineBytes

/-- Modelled from the spec: `buffer.WriteTo` (the buffer source is not
among the provided sources) — §4.2: flush all logical bytes to the
sink, signalling failure when the sink rejects the write; a fully
successful write resets the logical length. -/
def bufferWriteTo (sink : List Char → Bool) (buf : List Char) : List Char × Bool :=
  if sink buf then ([], true) else (buf, false)

/-- Modelled from the spec: `buffer.Reset` — logical length to zero. -/
def bufferReset (_buf : List Char) : List Char :=
  []

/-- `bufferPool.Get`: reuse a pooled buffer or construct a fresh
(empty) one. -/
def poolGet : List (List Char) → List Char × List (List Char)
  | [] => ([], [])
  | b :: bs => (b, bs)

/-- The observable outcome of one `Handle` call: the handler as left
by the call (the source writes no field of `h`), the pool, the byte
sequences handed to the sink (one entry per write attempt), and
whether an error was returned. -/
structure HandleOut where
  handler : Handler
  pool : List (List Char)
  writes : List (List Char)
  err : Bool

/-- `Handler.Handle`: acquire a buffer, build the line, attempt the
single sink write; on failure reset the buffer, return it to the pool
and report the error; on success return the (already reset) buffer to
the pool and report success. -/
def Handler.Handle (h : Handler) (hp : Heap) (pool : List (List Char))
    (sink : List Char → Bool) (rec : Rec) : HandleOut :=
  let g := poolGet pool
  let buf := g.1 ++ renderLine hp h rec
  let wr := bufferWriteTo sink buf
  if wr.2 then
    { handler := h, pool := wr.1 :: g.2, writes := [buf], err := false }
  else
    { handler := h, pool := bufferReset wr.1 :: g.2, writes := [buf], err := true }

/-- Modelled from the spec: the admission step (§4.3 step 1).  The
upstream logging façade — outside this package — consults `Enabled`
and invokes `Handle` only for admitted records; a discarded record
touches neither the pool nor the sink. -/
def logRecord (h : Handler) (hp : Heap) (pool : List (List Char))
    (sink : List Char → Bool) (rec : Rec) : HandleOut :=
  if h.Enabled rec.level then h.Handle hp pool sink rec
  else { handler := h, pool := pool, writes := [], err := false }

/-- `Handler.WithAttrs`: copy the parent's context slice header,
append the encoding of each new attribute through it under the current
group path, `Clip`, and wrap in a new handler; the heap is threaded
explicitly. -/
def Handler.WithAttrs (h : Handler) (hp : Heap) (attrs : List Attr) : Heap × Handler :=
  let r := appendBytes hp h.context (encodeAttrList h.group attrs)
  (r.1, { h with context := r.2.clip })

/-- `Handler.WithGroup`: trim the supplied name, join it to a
non-empty parent path with `.`, and share options and context
unchanged. -/
def Handler.WithGroup (h : Handler) (name : String) : Handler :=
  let name := goTrimSpace name
  let name := if h.group ≠ "" then h.group ++ "." ++ name else name
  { h with group := name }

/-- The `indentation` support struct of the older handler variant
(handler.go): a prefix, a per-level indent string, and a mutable
`uint` depth.  (`prefix` is rendered as `pre`, as in `Indentation`.) -/
structure IndentState where
  pre : String
  indent : String
  depth : Nat
  deriving DecidableEq, Repr

/-- `indentation.indentMsg` of the older handler variant: the message
unchanged when the prefix is empty and there is no indent string or
the depth is below one; otherwise the prefix (when non-empty), the
indent string repeated `depth` times (when non-empty and the depth is
positive), then the message. -/
def IndentState.indentMsg (hd : IndentState) (msg : String) : String :=
  if hd.pre = "" ∧ (hd.indent = "" ∨ hd.depth < 1) then msg
  else
    (if hd.pre ≠ "" then hd.pre else "") ++
    (if hd.indent ≠ "" ∧ 0 < hd.depth then repeatString hd.indent hd.depth else "") ++
    msg

/-! ## Concrete fixtures used by the witness theorems -/

/-- A concrete option set with indentation disabled. -/
def opts0 : HandlerOptions :=
  { addSource := false, level := 0, noColor := true, timeFormat := "fmt",
    indent := { pre := "", tab := "", key := "depth" } }

/-- A concrete option set with indentation configured (two-space tab). -/
def optsIndent : HandlerOptions :=
  { addSource := false, level := 0, noColor := true, timeFormat := "fmt",
    indent := { pre := "", tab := "  ", key := "depth" } }

/-- A concrete handler with indentation disabled. -/
def h0 : Handler :=
  NewHandler opts0

/-- A concrete handler with indentation configured. -/
def hIndent : Handler :=
  NewHandler optsIndent

/-- A concrete handler with a non-empty group path. -/
def hGrouped : Handler :=
  { opts := opts0, group := "g1", context := nilSlice }

/-- A concrete record below the Info level with one attribute. -/
def recDebug : Rec :=
  { time := "ts", level := -4, pc := 0, message := "m", attrs := [("foo", .vStr "bar")] }

/-- A concrete Info record carrying a depth attribute between two
ordinary attributes. -/
def recDepth : Rec :=
  { time := "ts", level := 0, pc := 0, message := "m",
    attrs := [("a", .vStr "x"), ("depth", .vLogValuer (.vInt 2)), ("b", .vInt 7)] }

/-- A sink that accepts every write. -/
def sinkOk : List Char → Bool := fun _ => true

/-! ## Helper lemmas -/

theorem repeatString_empty (n : Nat) : repeatString "" n = "" := by
  induction n with
  | zero => rfl
  | succ m ih => simp [repeatString, ih]

theorem isZero_iff (ind : Indentation) :
    ind.isZero = true ↔ ind.pre = "" ∧ ind.tab = "" := by
  simp [Indentation.isZero]

/-! ## C7: DefaultIndentation ignores its tab argument -/

/-- C7: for every `tab` argument, `DefaultIndentation tab` has a
two-space `Tab` (the argument is ignored), an empty `Prefix`, and the
`"depth"` key. -/
theorem defaultIndentation_ignores_arg (tab : String) :
    (DefaultIndentation tab).tab = "  " ∧ (DefaultIndentation tab).pre = "" ∧
    (DefaultIndentation tab).key = "depth" :=
  ⟨rfl, rfl, rfl⟩

/-! ## C4: the indent function -/

/-- C4 counterexample: with a non-empty configured prefix, the claim
asserts `indent(0)` equals the prefix alone, but `indentString`
returns the empty string whenever the depth is `≤ 0`. -/
theorem indentString_zero_counterexample :
    (Indentation.mk "P" "  " "depth").indentString 0 = "" ∧
    (Indentation.mk "P" "  " "depth").indentString 0 ≠ "P" := by
  decide

/-- C4 amended: `indentString` is pure and deterministic with
`indent(0)` and `indent(n ≤ 0)` always empty (the prefix is *not*
applied at depth 0), and `indent(n) = prefix ++ tab^n` for `n > 0`
(hence empty whenever both prefix and tab are empty). -/
theorem indentString_amended (ind : Indentation) (m : Nat) :
    ind.indentString 0 = "" ∧ ind.indentString (-(m : Int)) = "" ∧
    ind.indentString ((m : Int) + 1) = ind.pre ++ repeatString ind.tab (m + 1) := by
  refine ⟨?_, ?_, ?_⟩
  · simp [Indentation.indentString]
  · simp [Indentation.indentString]
  · by_cases hz : ind.isZero
    · obtain ⟨hp, ht⟩ := (isZero_iff ind).mp hz
      simp [Indentation.indentString, hz, hp, ht, repeatString_empty]
    · have hpos : ¬((m : Int) + 1 ≤ 0) := by omega
      have htn : ((m : Int) + 1).toNat = m + 1 := by omega
      simp only [Indentation.indentString, hz, hpos, Bool.false_or, decide_eq_true_eq,
        if_false, htn]
      by_cases hp : ind.pre = "" <;> by_cases ht : ind.tab = "" <;>
        simp [hp, ht, repeatString_empty]

/-! ## C10: DepthValuer increment/decrement -/

/-- C10: `Increment` then `Decrement` restores the value reported by
`LogValue`; `Decrement` applies no floor (the depth always drops by
one, so repeated decrements go negative); and a negative depth yields
an empty indentation string. -/
theorem depthValuer_inc_dec (dv : DepthValuer) (ind : Indentation) (d : Int)
    (hd : d < 0) :
    dv.Increment.Decrement.LogValue = dv.LogValue ∧
    dv.Decrement.depth = dv.depth - 1 ∧
    ind.indentString d = "" := by
  refine ⟨?_, rfl, ?_⟩
  · simp [DepthValuer.Increment, DepthValuer.Decrement, DepthValuer.LogValue]
  · have : d ≤ 0 := le_of_lt hd
    simp [Indentation.indentString, this]

/-- C10 witness. -/
theorem depthValuer_inc_dec_witness :
    (-1 : Int) < 0 ∧
    ((DepthValuer.mk 0).Increment.Decrement.LogValue = (DepthValuer.mk 0).LogValue ∧
      (DepthValuer.mk 0).Decrement.depth = (0 : Int) - 1 ∧
      (DefaultIndentation "").indentString (-1) = "") :=
  ⟨by decide, depthValuer_inc_dec (DepthValuer.mk 0) (DefaultIndentation "") (-1) (by decide)⟩

/-! ## C9: WithGroup -/

/-- C9: when the parent's group path is non-empty and the supplied
name trims to the empty string, the derived handler's group path is
the parent's path followed by a trailing `.`; and in all cases
`WithGroup` trims the name, joins it to a non-empty parent path with
`.`, and shares the options and the context slice unchanged. -/
theorem withGroup_spec (h : Handler) (name : String)
    (hg : h.group ≠ "") (hn : goTrimSpace name = "") :
    (h.WithGroup name).group = h.group ++ "." ∧
    ∀ nm : String,
      (h.WithGroup nm).group =
        (if h.group = "" then goTrimSpace nm else h.group ++ "." ++ goTrimSpace nm) ∧
      (h.WithGroup nm).context = h.context ∧
      (h.WithGroup nm).opts = h.opts := by
  constructor
  · simp [Handler.WithGroup, hg, hn]
  · intro nm
    by_cases hg' : h.group = "" <;> simp [Handler.WithGroup, hg']

/-- C9 witness. -/
theorem withGroup_spec_witness :
    hGrouped.group ≠ "" ∧ goTrimSpace " " = "" ∧
    (hGrouped.WithGroup " ").group = hGrouped.group ++ "." :=
  ⟨by decide, by decide, (withGroup_spec hGrouped " " (by decide) (by decide)).1⟩

/-! ## C1: level admission -/

/-- C1: a record whose level is below the configured minimum is
discarded by the admission filter: `Enabled` reports false, and the
dispatch performs no sink write and leaves the buffer pool untouched
(no buffer is acquired). -/
theorem logRecord_discards (h : Handler) (hp : Heap) (pool : List (List Char))
    (sink : List Char → Bool) (rec : Rec) (hlt : rec.level < h.opts.level) :
    h.Enabled rec.level = false ∧
    logRecord h hp pool sink rec =
      { handler := h, pool := pool, writes := [], err := false } := by
  have he : h.Enabled rec.level = false := by
    simp only [Handler.Enabled, decide_eq_false_iff_not]
    omega
  exact ⟨he, by simp [logRecord, he]⟩

/-- C1 witness. -/
theorem logRecord_discards_witness :
    recDebug.level < h0.opts.level ∧
    logRecord h0 emptyHeap [] sinkOk recDebug =
      { handler := h0, pool := [], writes := [], err := false } :=
  ⟨by decide, (logRecord_discards h0 emptyHeap [] sinkOk recDebug (by decide)).2⟩

theorem handleOut_core (h : Handler) (hp : Heap) (pool : List (List Char))
    (sink : List Char → Bool) (rec : Rec) :
    (h.Handle hp pool sink rec).writes = [(poolGet pool).1 ++ renderLine hp h rec] ∧
    (h.Handle hp pool sink rec).err = !sink ((poolGet pool).1 ++ renderLine hp h rec) ∧
    (h.Handle hp pool sink rec).pool = [] :: (poolGet pool).2 ∧
    (h.Handle hp pool sink rec).handler = h := by
  by_cases hs : sink ((poolGet pool).1 ++ renderLine hp h rec) <;>
    simp [Handler.Handle, bufferWriteTo, bufferReset, hs]

/-! ## C5: flush and release -/

/-- C5: every `Handle` call makes exactly one sink write attempt (no
internal retry), returns an error exactly when the sink rejects that
write, and in both outcomes the buffer goes back to the pool reset
(logically empty); the handler itself is untouched. -/
theorem handle_flush_release (h : Handler) (hp : Heap) (pool : List (List Char))
    (sink : List Char → Bool) (rec : Rec) :
    (h.Handle hp pool sink rec).writes = [(poolGet pool).1 ++ renderLine hp h rec] ∧
    (h.Handle hp pool sink rec).err = !sink ((poolGet pool).1 ++ renderLine hp h rec) ∧
    (h.Handle hp pool sink rec).pool = [] :: (poolGet pool).2 ∧
    (h.Handle hp pool sink rec).handler = h :=
  handleOut_core h hp pool sink rec

/-! ## C6: idempotence of Handle -/

theorem handle_writes_of_clean_pool (h : Handler) (hp : Heap) (pool : List (List Char))
    (sink : List Char → Bool) (rec : Rec) (hpool : ∀ b ∈ pool, b = ([] : List Char)) :
    (h.Handle hp pool sink rec).writes = [renderLine hp h rec] ∧
    ∀ b ∈ (h.Handle hp pool sink rec).pool, b = ([] : List Char) := by
  have hget : (poolGet pool).1 = ([] : List Char) ∧
      ∀ b ∈ (poolGet pool).2, b = ([] : List Char) := by
    cases pool with
    | nil => simp [poolGet]
    | cons b bs =>
        refine ⟨hpool b (by simp [poolGet]), fun x hx => hpool x ?_⟩
        simp [poolGet] at hx ⊢
        exact Or.inr hx
  have hfr := handleOut_core h hp pool sink rec
  constructor
  · rw [hfr.1, hget.1]
    simp
  · intro b hb
    rw [hfr.2.2.1] at hb
    simp only [List.mem_cons] at hb
    rcases hb with hb | hb
    · exact hb
    · exact hget.2 b hb

/-- C6: with every pooled buffer reset (the invariant `Handle` itself
maintains), handling the same record twice through the same handler —
no intervening derivation — hands byte-identical lines to the sink
both times, and neither call changes the handler's context, group or
configuration. -/
theorem handle_idempotent (h : Handler) (hp : Heap) (pool : List (List Char))
    (sink : List Char → Bool) (rec : Rec)
    (hpool : ∀ b ∈ pool, b = ([] : List Char)) :
    (h.Handle hp pool sink rec).writes =
      (h.Handle hp (h.Handle hp pool sink rec).pool sink rec).writes ∧
    (h.Handle hp pool sink rec).writes = [renderLine hp h rec] ∧
    (h.Handle hp pool sink rec).handler = h ∧
    (h.Handle hp (h.Handle hp pool sink rec).pool sink rec).handler = h := by
  obtain ⟨hw1, hp1⟩ := handle_writes_of_clean_pool h hp pool sink rec hpool
  obtain ⟨hw2, -⟩ :=
    handle_writes_of_clean_pool h hp (h.Handle hp pool sink rec).pool sink rec hp1
  refine ⟨by rw [hw1, hw2], hw1, ?_, ?_⟩ <;>
    exact (handleOut_core _ _ _ _ _).2.2.2

/-- C6 witness. -/
theorem handle_idempotent_witness :
    (∀ b ∈ ([] : List (List Char)), b = ([] : List Char)) ∧
    (h0.Handle emptyHeap [] sinkOk recDepth).writes =
      (h0.Handle emptyHeap (h0.Handle emptyHeap [] sinkOk recDepth).pool sinkOk recDepth).writes :=
  ⟨by simp, (handle_idempotent h0 emptyHeap [] sinkOk recDepth (by simp)).1⟩

/-! ## Scan lemmas (C3, C8) -/

theorem scanStep_fst_of_key (key : String) (acc : List Attr × Int) (a : Attr)
    (hk : a.1 = key) : (scanStep key acc a).1 = acc.1 := by
  simp only [scanStep, if_pos hk]
  by_cases hi :
      (if a.2.kind = Kind.logValuer then a.2.resolveLogValue else a.2).kind = Kind.int64 <;>
    simp [hi]

theorem scan_foldl_fst (key : String) (as : List Attr) (acc : List Attr × Int) :
    (as.foldl (scanStep key) acc).1 = acc.1 ++ as.filter (fun b => !(b.1 == key)) := by
  induction as generalizing acc with
  | nil => simp
  | cons a rest ih =>
      rw [List.foldl_cons, ih, List.filter_cons]
      by_cases hk : a.1 = key
      · rw [scanStep_fst_of_key key acc a hk]
        simp [hk]
      · have : scanStep key acc a = (acc.1 ++ [a], acc.2) := by
          simp [scanStep, hk]
        rw [this]
        simp [hk]

theorem getLast?_getD_cons :
    ∀ (l : List Int) (x d : Int), ((x :: l).getLast?).getD d = (l.getLast?).getD x
  | [], x, d => by simp
  | y :: t, x, d => by
      rw [List.getLast?_cons_cons, getLast?_getD_cons t y d, getLast?_getD_cons t y x]

theorem depthCandidates_cons (key : String) (a : Attr) (rest : List Attr) :
    depthCandidates key (a :: rest) =
      (if a.1 = key then
        (if (if a.2.kind = Kind.logValuer then a.2.resolveLogValue else a.2).kind = Kind.int64
          then [(if a.2.kind = Kind.logValuer then a.2.resolveLogValue else a.2).int64Val]
          else [])
        else []) ++ depthCandidates key rest := by
  unfold depthCandidates
  rw [List.filterMap_cons]
  by_cases hk : a.1 = key
  · by_cases hi :
        (if a.2.kind = Kind.logValuer then a.2.resolveLogValue else a.2).kind = Kind.int64 <;>
      simp [hk, hi]
  · simp [hk]

theorem scan_foldl_snd (key : String) (as : List Attr) (acc : List Attr × Int) :
    (as.foldl (scanStep key) acc).2 = ((depthCandidates key as).getLast?).getD acc.2 := by
  induction as generalizing acc with
  | nil => simp [depthCandidates]
  | cons a rest ih =>
      rw [List.foldl_cons, depthCandidates_cons]
      by_cases hk : a.1 = key
      · by_cases hi :
            (if a.2.kind = Kind.logValuer then a.2.resolveLogValue else a.2).kind = Kind.int64
        · have hstep : scanStep key acc a =
              (acc.1, (if a.2.kind = Kind.logValuer then a.2.resolveLogValue else a.2).int64Val) := by
            simp [scanStep, hk, hi]
          rw [hstep, ih]
          simp only [hk, hi, if_true, List.singleton_append]
          rw [getLast?_getD_cons]
        · have hstep : scanStep key acc a = acc := by
            simp [scanStep, hk, hi]
          rw [hstep, ih]
          simp [hk, hi]
      · have hstep : scanStep key acc a = (acc.1 ++ [a], acc.2) := by
          simp [scanStep, hk]
        rw [hstep, ih]
        simp [hk]

theorem depthCandidates_eq_nil (key : String) (l : List Attr)
    (hl : ∀ b ∈ l, ¬b.1 = key) : depthCandidates key l = [] := by
  unfold depthCandidates
  rw [List.filterMap_eq_nil_iff]
  intro a ha
  simp [hl a ha]

/-! ## C3: the single depth scan of Handle -/

/-- C3: when indentation is configured, `Handle` scans the record's
attributes once: every attribute under the depth key is excluded from
emission and the rest are retained in order; for a record carrying
exactly one depth-key attribute, the depth is that attribute's value
after resolving a lazily-evaluated `LogValuer` — `0` when the resolved
value is of the wrong kind — and the rendered line indents the message
by that depth and emits exactly the retained attributes; when
indentation is not configured, the rendered line carries the
unmodified message and every attribute in order (no scan). -/
theorem handle_indent_scan (hp : Heap) (h : Handler) (rec : Rec)
    (l1 l2 : List Attr) (a : Attr)
    (hiz : h.opts.indent.isZero = false)
    (hsplit : rec.attrs = l1 ++ a :: l2)
    (hk : a.1 = h.opts.indent.key)
    (hl1 : ∀ b ∈ l1, ¬b.1 = h.opts.indent.key)
    (hl2 : ∀ b ∈ l2, ¬b.1 = h.opts.indent.key) :
    (scanAttrs h.opts.indent.key rec.attrs).1 =
        rec.attrs.filter (fun b => !(b.1 == h.opts.indent.key)) ∧
    (scanAttrs h.opts.indent.key rec.attrs).2 = interpDepth a.2 ∧
    renderLine hp h rec =
      writeTimestamp rec.time ++ writeLevel rec.level ++
        (if h.opts.addSource && decide (0 < rec.pc) then writeSource rec.pc else []) ++
        writeMessage (h.opts.indent.indentString (interpDepth a.2) ++ rec.message) ++
        readSlice hp h.context ++
        encodeAttrList h.group
          (rec.attrs.filter (fun b => !(b.1 == h.opts.indent.key))) ++
        newlineBytes ∧
    (∀ (hp2 : Heap) (o : HandlerOptions) (g : String) (c : GoSlice) (rec2 : Rec)
        (k : String),
      renderLine hp2
          { opts := { o with indent := { pre := "", tab := "", key := k } },
            group := g, context := c } rec2 =
        writeTimestamp rec2.time ++ writeLevel rec2.level ++
          (if o.addSource && decide (0 < rec2.pc) then writeSource rec2.pc else []) ++
          writeMessage rec2.message ++ readSlice hp2 c ++
          encodeAttrList g rec2.attrs ++ newlineBytes) := by
  have c1 : (scanAttrs h.opts.indent.key rec.attrs).1 =
      rec.attrs.filter (fun b => !(b.1 == h.opts.indent.key)) := by
    simpa [scanAttrs] using scan_foldl_fst h.opts.indent.key rec.attrs ([], 0)
  have c2 : (scanAttrs h.opts.indent.key rec.attrs).2 = interpDepth a.2 := by
    rw [scanAttrs, scan_foldl_snd, hsplit]
    unfold depthCandidates
    rw [List.filterMap_append]
    have hnil1 : depthCandidates h.opts.indent.key l1 = [] :=
      depthCandidates_eq_nil _ _ hl1
    have hnil2 : depthCandidates h.opts.indent.key l2 = [] :=
      depthCandidates_eq_nil _ _ hl2
    unfold depthCandidates at hnil1 hnil2
    rw [hnil1, List.filterMap_cons, List.nil_append]
    by_cases hi :
        (if a.2.kind = Kind.logValuer then a.2.resolveLogValue else a.2).kind = Kind.int64
    · simp [hk, hi, hnil2, interpDepth]
    · simp [hk, hi, hnil2, interpDepth]
  refine ⟨c1, c2, ?_, ?_⟩
  · simp only [renderLine, hiz, Bool.false_eq_true, if_false]
    rw [c1, c2]
  · intro hp2 o g c rec2 k
    simp [renderLine, Indentation.isZero]

/-- C3 witness: the concrete record `recDepth` carries exactly one
depth attribute (a lazily-evaluated value resolving to `2`) between
two ordinary attributes. -/
theorem handle_indent_scan_witness :
    hIndent.opts.indent.isZero = false ∧
    recDepth.attrs =
      [(("a" : String), Value.vStr "x")] ++
        (("depth", Value.vLogValuer (Value.vInt 2)) : Attr) ::
          [(("b" : String), Value.vInt 7)] ∧
    (scanAttrs hIndent.opts.indent.key recDepth.attrs).2 =
      interpDepth (Value.vLogValuer (Value.vInt 2)) :=
  ⟨by decide, rfl,
    (handle_indent_scan emptyHeap hIndent recDepth
        [(("a" : String), Value.vStr "x")] [(("b" : String), Value.vInt 7)]
        (("depth", Value.vLogValuer (Value.vInt 2)) : Attr)
        (by decide) rfl (by decide) (by decide) (by decide)).2.1⟩

/-! ## C8: several depth-key attributes -/

/-- C8: the single scan excludes every attribute under the depth key
from emission (the retained list is exactly the ordered filter of the
other attributes), and the resulting depth is the last integer-kind
resolved value contributed under that key (wrong-kind attributes
contribute nothing, leaving the previously scanned depth in place),
defaulting to `0` when no integer contribution exists. -/
theorem scan_multiple_depth_attrs (key : String) (as : List Attr) :
    (scanAttrs key as).1 = as.filter (fun b => !(b.1 == key)) ∧
    (scanAttrs key as).2 = ((depthCandidates key as).getLast?).getD 0 := by
  unfold scanAttrs
  exact ⟨by simpa using scan_foldl_fst key as ([], 0),
    by simpa using scan_foldl_snd key as ([], 0)⟩

/-! ## Slice-aliasing lemmas (C2) -/

theorem appendByte_owned (h0 h : Heap) (s : GoSlice) (c : Char) (hO : Owned h0 h s) :
    Owned h0 (appendByte h s c).1 (appendByte h s c).2 ∧
    readSlice (appendByte h s c).1 (appendByte h s c).2 = readSlice h s ++ [c] := by
  obtain ⟨⟨hlen, hbound⟩, ⟨hhs, hagree⟩, hdisj⟩ := hO
  by_cases hlt : s.len < s.cap
  · have harr : h0.hsize ≤ s.arr := by
      rcases hdisj with hcl | hge
      · omega
      · exact hge
    have hcap : 0 < s.cap := by omega
    obtain ⟨harrlt, hsz⟩ := hbound hcap
    simp only [appendByte, if_pos hlt]
    have hread : (heapSet h s.arr (arrWrite (h.arrs s.arr) (s.off + s.len) c)).arrs s.arr =
        arrWrite (h.arrs s.arr) (s.off + s.len) c := by
      simp [heapSet]
    constructor
    · refine ⟨⟨by show s.len + 1 ≤ s.cap; omega, fun _ => ⟨?_, ?_⟩⟩, ⟨?_, ?_⟩,
        Or.inr harr⟩
      · simpa [heapSet] using harrlt
      · show s.off + s.cap ≤
          ((heapSet h s.arr (arrWrite (h.arrs s.arr) (s.off + s.len) c)).arrs s.arr).size
        rw [hread]
        simpa [arrWrite] using hsz
      · simpa [heapSet] using hhs
      · intro i hi
        simp only [heapSet]
        rw [if_neg (by omega)]
        exact hagree i hi
    · simp only [readSlice, hread]
      rw [List.range_succ, List.map_append, List.map_cons, List.map_nil]
      congr 1
      · apply List.map_congr_left
        intro i hi
        simp only [List.mem_range] at hi
        simp only [arrWrite]
        rw [if_neg (by omega)]
      · simp [arrWrite]
  · simp only [appendByte, if_neg hlt]
    have hread : ∀ a : Arr, (heapPush h a).arrs h.hsize = a := by
      intro a; simp [heapPush]
    constructor
    · refine ⟨⟨by show s.len + 1 ≤ 2 * (s.len + 1); omega, fun _ => ⟨?_, ?_⟩⟩,
        ⟨?_, ?_⟩, Or.inr ?_⟩
      · simp [heapPush]
      · show (0 : Nat) + 2 * (s.len + 1) ≤
          ((heapPush h
            { size := 2 * (s.len + 1)
              data := fun j =>
                if j < s.len then (h.arrs s.arr).data (s.off + j)
                else if j = s.len then c else ' ' }).arrs h.hsize).size
        rw [hread]
        show (0 : Nat) + 2 * (s.len + 1) ≤ 2 * (s.len + 1)
        omega
      · simp [heapPush]
        omega
      · intro i hi
        simp only [heapPush]
        rw [if_neg (by omega)]
        exact hagree i hi
      · simpa [heapPush] using hhs
    · simp only [readSlice, hread]
      rw [List.range_succ, List.map_append, List.map_cons, List.map_nil]
      congr 1
      · apply List.map_congr_left
        intro i hi
        simp only [List.mem_range] at hi
        simp [hi]
      · simp

theorem appendBytes_owned (h0 : Heap) (cs : List Char) :
    ∀ (h : Heap) (s : GoSlice), Owned h0 h s →
      Owned h0 (appendBytes h s cs).1 (appendBytes h s cs).2 ∧
      readSlice (appendBytes h s cs).1 (appendBytes h s cs).2 = readSlice h s ++ cs := by
  induction cs with
  | nil =>
      intro h s hO
      simpa [appendBytes] using hO
  | cons c cs ih =>
      intro h s hO
      obtain ⟨hO', hr'⟩ := appendByte_owned h0 h s c hO
      obtain ⟨hO'', hr''⟩ := ih _ _ hO'
      simp only [appendBytes]
      refine ⟨hO'', ?_⟩
      rw [hr'', hr']
      simp

theorem agreesBelow_trans {h0 h1 h2 : Heap} (a : AgreesBelow h0 h1)
    (b : AgreesBelow h1 h2) : AgreesBelow h0 h2 :=
  ⟨le_trans a.1 b.1, fun i hi => (b.2 i (lt_of_lt_of_le hi a.1)).trans (a.2 i hi)⟩

theorem sliceWF_mono {h0 h : Heap} {t : GoSlice} (hA : AgreesBelow h0 h)
    (hWF : SliceWF h0 t) : SliceWF h t := by
  refine ⟨hWF.1, fun hc => ?_⟩
  obtain ⟨h1, h2⟩ := hWF.2 hc
  exact ⟨lt_of_lt_of_le h1 hA.1, by rw [hA.2 t.arr h1]; exact h2⟩

theorem readSlice_agrees {h0 h : Heap} {t : GoSlice} (hA : AgreesBelow h0 h)
    (hWF : SliceWF h0 t) : readSlice h t = readSlice h0 t := by
  rcases Nat.eq_zero_or_pos t.len with hz | hpos
  · simp [readSlice, hz]
  · have hc : 0 < t.cap := lt_of_lt_of_le hpos hWF.1
    have harr := hA.2 t.arr (hWF.2 hc).1
    simp [readSlice, harr]

theorem clip_readSlice (h : Heap) (s : GoSlice) : readSlice h s.clip = readSlice h s :=
  rfl

theorem clip_WF {h : Heap} {s : GoSlice} (hWF : SliceWF h s) : SliceWF h s.clip := by
  refine ⟨le_refl _, fun hc => ?_⟩
  obtain ⟨hlen, hbound⟩ := hWF
  have hcc : 0 < s.cap := by
    simp only [GoSlice.clip] at hc
    omega
  obtain ⟨h1, h2⟩ := hbound hcc
  exact ⟨h1, by simp only [GoSlice.clip]; omega⟩

theorem owned_init {h : Heap} {s : GoSlice} (hWF : SliceWF h s)
    (hcl : s.cap = s.len) : Owned h h s :=
  ⟨hWF, ⟨le_refl _, fun _ _ => rfl⟩, Or.inl hcl⟩

theorem withAttrs_spec (hp : Heap) (h : Handler) (attrs : List Attr)
    (hWF : SliceWF hp h.context) (hcl : h.context.cap = h.context.len) :
    AgreesBelow hp (h.WithAttrs hp attrs).1 ∧
    SliceWF (h.WithAttrs hp attrs).1 (h.WithAttrs hp attrs).2.context ∧
    (h.WithAttrs hp attrs).2.context.cap = (h.WithAttrs hp attrs).2.context.len ∧
    readSlice (h.WithAttrs hp attrs).1 (h.WithAttrs hp attrs).2.context =
      readSlice hp h.context ++ encodeAttrList h.group attrs ∧
    (h.WithAttrs hp attrs).2.group = h.group ∧
    (h.WithAttrs hp attrs).2.opts = h.opts := by
  obtain ⟨hO, hr⟩ :=
    appendBytes_owned hp (encodeAttrList h.group attrs) hp h.context (owned_init hWF hcl)
  have e2 : (h.WithAttrs hp attrs).2.context =
      (appendBytes hp h.context (encodeAttrList h.group attrs)).2.clip := rfl
  refine ⟨hO.2.1, ?_, ?_, ?_, rfl, rfl⟩
  · rw [e2]
    exact clip_WF hO.1
  · rw [e2]
    rfl
  · rw [e2, clip_readSlice]
    exact hr

theorem renderLine_heap_congr {hp hp' : Heap} (h : Handler) (rec : Rec)
    (hrs : readSlice hp h.context = readSlice hp' h.context) :
    renderLine hp h rec = renderLine hp' h rec := by
  unfold renderLine
  rw [hrs]

theorem handle_heap_congr {hp hp' : Heap} (h : Handler) (pool : List (List Char))
    (sink : List Char → Bool) (rec : Rec)
    (hrs : readSlice hp h.context = readSlice hp' h.context) :
    h.Handle hp pool sink rec = h.Handle hp' pool sink rec := by
  unfold Handler.Handle
  rw [renderLine_heap_congr h rec hrs]

/-! ## C2: sibling derivations do not alias -/

/-- C2: deriving two children from one parent via `WithAttrs` — the
second derivation after the first — leaves the parent's context bytes
unchanged, gives each sibling exactly the parent's bytes followed by
its own attribute encodings (so neither context carries anything from
the other's derivation), and every line subsequently rendered through
the first sibling is byte-for-byte what it was before the second
sibling existed. -/
theorem withAttrs_sibling_independence (hp : Heap) (p : Handler) (as bs : List Attr)
    (hWF : SliceWF hp p.context) (hcl : p.context.cap = p.context.len) :
    readSlice (p.WithAttrs (p.WithAttrs hp as).1 bs).1 p.context =
      readSlice hp p.context ∧
    readSlice (p.WithAttrs (p.WithAttrs hp as).1 bs).1 (p.WithAttrs hp as).2.context =
      readSlice hp p.context ++ encodeAttrList p.group as ∧
    readSlice (p.WithAttrs (p.WithAttrs hp as).1 bs).1
        (p.WithAttrs (p.WithAttrs hp as).1 bs).2.context =
      readSlice hp p.context ++ encodeAttrList p.group bs ∧
    ∀ (pool : List (List Char)) (sink : List Char → Bool) (rec : Rec),
      (p.WithAttrs hp as).2.Handle (p.WithAttrs (p.WithAttrs hp as).1 bs).1
          pool sink rec =
        (p.WithAttrs hp as).2.Handle (p.WithAttrs hp as).1 pool sink rec := by
  obtain ⟨hA1, hWF1, hcl1, hr1, -, -⟩ := withAttrs_spec hp p as hWF hcl
  have hWFp1 : SliceWF (p.WithAttrs hp as).1 p.context := sliceWF_mono hA1 hWF
  obtain ⟨hA2, hWF2, hcl2, hr2, -, -⟩ :=
    withAttrs_spec (p.WithAttrs hp as).1 p bs hWFp1 hcl
  have hparent1 : readSlice (p.WithAttrs hp as).1 p.context = readSlice hp p.context :=
    readSlice_agrees hA1 hWF
  have hparent2 : readSlice (p.WithAttrs (p.WithAttrs hp as).1 bs).1 p.context =
      readSlice (p.WithAttrs hp as).1 p.context :=
    readSlice_agrees hA2 hWFp1
  have hsib : readSlice (p.WithAttrs (p.WithAttrs hp as).1 bs).1
      (p.WithAttrs hp as).2.context =
      readSlice (p.WithAttrs hp as).1 (p.WithAttrs hp as).2.context :=
    readSlice_agrees hA2 hWF1
  refine ⟨hparent2.trans hparent1, hsib.trans hr1, ?_, ?_⟩
  · rw [hr2, hparent1]
  · intro pool sink rec
    exact handle_heap_congr _ pool sink rec hsib

/-- C2 witness. -/
theorem withAttrs_sibling_independence_witness :
    SliceWF emptyHeap h0.context ∧ h0.context.cap = h0.context.len ∧
    readSlice
        ((h0.WithAttrs (h0.WithAttrs emptyHeap [(("a" : String), Value.vInt 1)]).1
          [(("b" : String), Value.vStr "x")]).1) h0.context =
      readSlice emptyHeap h0.context :=
  ⟨by decide, by decide,
    (withAttrs_sibling_independence emptyHeap h0 [(("a" : String), Value.vInt 1)]
        [(("b" : String), Value.vStr "x")] (by decide) (by decide)).1⟩

end Console
